import Mathlib

/-!
Formal model of the Instant-Karaoke backend's chunked separation pipeline
(`backend/app.py` and `backend/pitch.py`), embedded shallowly.

Modelling conventions:
- a stereo int16 PCM frame becomes a pair of integers (one per channel);
- NumPy float arithmetic is idealised as exact real (or rational) arithmetic;
- external subprocesses (the separation model, the ffmpeg decode / pitch-shift
  calls) are oracle parameters of the functions that invoke them;
- Python code that raises is modelled with `Option`.
-/

/-- A stereo PCM frame: one int16 sample per channel, modelled as integers. -/
abbrev Frame := Int × Int

/-- A stereo frame of floating-point samples, modelled over the reals. -/
abbrev RFrame := ℝ × ℝ

/-- Python's `int(q)` applied to a numeric value: truncation toward zero. -/
def pyInt (q : ℚ) : ℤ := if 0 ≤ q then ⌊q⌋ else -⌊-q⌋

/-- The greedy walk of `for i in range(0, len(audio_data), chunk_samples)` in
`split_audio_into_chunks` (`backend/app.py`): successive slices of `cs`
samples, keeping a slice only when it is exactly `cs` samples long, so the
trailing remainder is dropped. -/
def chunksOf (cs : ℕ) (l : List Frame) : List (List Frame) :=
  if _h : 0 < cs ∧ cs ≤ l.length then
    l.take cs :: chunksOf cs (l.drop cs)
  else []
termination_by l.length
decreasing_by
  simp only [List.length_drop]
  omega

/-- `split_audio_into_chunks(audio_data, sample_rate, chunk_duration)` from
`backend/app.py`: `chunk_samples = int(sample_rate * chunk_duration)`. Python's
`range` raises `ValueError` on a zero step (modelled as `none`), iterates zero
times on a negative step with a positive stop, and otherwise walks the buffer
keeping only the complete windows. -/
def split_audio_into_chunks (audio : List Frame) (sample_rate : ℕ)
    (chunk_duration : ℚ) : Option (List (List Frame)) :=
  let cs : ℤ := pyInt ((sample_rate : ℚ) * chunk_duration)
  if cs = 0 then none
  else if cs < 0 then some []
  else some (chunksOf cs.toNat audio)

/-- Concrete three-frame buffer used to exercise the chunker on a fractional
window size. -/
def cexAudio : List Frame := [(0, 0), (1, 1), (2, 2)]

/-- The windows the chunker actually produces on `cexAudio` at
`sample_rate = 3`, `chunk_duration = 1/2`. -/
def cexChunks : List (List Frame) := [[(0, 0)], [(1, 1)], [(2, 2)]]

theorem chunksOf_length (cs : ℕ) (hcs : 0 < cs) :
    ∀ n, ∀ l : List Frame, l.length ≤ n →
      (chunksOf cs l).length = l.length / cs := by
  intro n
  induction n with
  | zero =>
    intro l hl
    rw [chunksOf]
    have hl0 : l.length = 0 := Nat.le_zero.mp hl
    rw [dif_neg (by omega)]
    simp [hl0]
  | succ n ih =>
    intro l hl
    rw [chunksOf]
    by_cases h : 0 < cs ∧ cs ≤ l.length
    · rw [dif_pos h]
      have hdrop : (l.drop cs).length ≤ n := by
        simp only [List.length_drop]; omega
      have := ih (l.drop cs) hdrop
      simp only [List.length_cons, this, List.length_drop]
      have : l.length / cs = (l.length - cs) / cs + 1 :=
        Nat.div_eq_sub_div hcs h.2
      omega
    · rw [dif_neg h]
      have : l.length < cs := by omega
      simp [Nat.div_eq_of_lt this]

theorem chunksOf_mem_length (cs : ℕ) :
    ∀ n, ∀ l : List Frame, l.length ≤ n →
      ∀ c ∈ chunksOf cs l, c.length = cs := by
  intro n
  induction n with
  | zero =>
    intro l hl c hc
    rw [chunksOf] at hc
    by_cases h : 0 < cs ∧ cs ≤ l.length
    · omega
    · rw [dif_neg h] at hc
      simp at hc
  | succ n ih =>
    intro l hl c hc
    rw [chunksOf] at hc
    by_cases h : 0 < cs ∧ cs ≤ l.length
    · rw [dif_pos h] at hc
      rcases List.mem_cons.mp hc with rfl | hmem
      · simp only [List.length_take]
        omega
      · exact ih (l.drop cs) (by simp only [List.length_drop]; omega) c hmem
    · rw [dif_neg h] at hc
      simp at hc

theorem chunksOf_join (cs : ℕ) (hcs : 0 < cs) :
    ∀ n, ∀ l : List Frame, l.length ≤ n →
      (chunksOf cs l).flatten = l.take (cs * (l.length / cs)) := by
  intro n
  induction n with
  | zero =>
    intro l hl
    rw [chunksOf]
    have hl0 : l.length = 0 := Nat.le_zero.mp hl
    rw [dif_neg (by omega)]
    simp [hl0]
  | succ n ih =>
    intro l hl
    rw [chunksOf]
    by_cases h : 0 < cs ∧ cs ≤ l.length
    · rw [dif_pos h]
      have hdrop : (l.drop cs).length ≤ n := by
        simp only [List.length_drop]; omega
      simp only [List.flatten_cons, ih (l.drop cs) hdrop, List.length_drop]
      have hdiv : l.length / cs = (l.length - cs) / cs + 1 :=
        Nat.div_eq_sub_div hcs h.2
      rw [hdiv, Nat.mul_add, Nat.mul_one, Nat.add_comm (cs * ((l.length - cs) / cs)) cs,
        List.take_add]
    · rw [dif_neg h]
      have hlt : l.length < cs := by omega
      simp [Nat.div_eq_of_lt hlt]

/-- Claim C2 (amended): with `chunk_samples = int(sample_rate * chunk_duration)`
positive, the chunker emits exactly `L / chunk_samples` (integer division)
windows, each exactly `chunk_samples` samples long, and those windows are the
first `chunk_samples * (L / chunk_samples)` samples of the input in order, so
the trailing remainder (shorter than `chunk_samples` samples) is dropped. This
coincides with the original claim exactly when `sample_rate * chunk_duration`
is an integer. -/
theorem chunker_window_count_and_size (audio : List Frame) (sr : ℕ) (d : ℚ)
    (h : 0 < pyInt ((sr : ℚ) * d)) :
    ∃ chunks, split_audio_into_chunks audio sr d = some chunks ∧
      chunks.length = audio.length / (pyInt ((sr : ℚ) * d)).toNat ∧
      (∀ c ∈ chunks, c.length = (pyInt ((sr : ℚ) * d)).toNat) ∧
      chunks.flatten = audio.take
        ((pyInt ((sr : ℚ) * d)).toNat *
          (audio.length / (pyInt ((sr : ℚ) * d)).toNat)) := by
  refine ⟨chunksOf (pyInt ((sr : ℚ) * d)).toNat audio, ?_, ?_, ?_, ?_⟩
  · rw [split_audio_into_chunks]
    rw [if_neg (by omega), if_neg (by omega)]
  · exact chunksOf_length _ (by omega) audio.length audio le_rfl
  · exact chunksOf_mem_length _ audio.length audio le_rfl
  · exact chunksOf_join _ (by omega) audio.length audio le_rfl

/-- Claim C2 (counterexample): at `sample_rate = 3`, `chunk_duration = 1/2`
(so `sr·d = 3/2`), a 3-frame buffer yields three one-frame windows, while the
claim's formula `⌊L / (sr·d)⌋ = ⌊3 / (3/2)⌋ = 2` demands two windows (each of
the impossible length `3/2`). -/
theorem chunker_window_count_cex :
    split_audio_into_chunks cexAudio 3 (1 / 2) = some cexChunks ∧
      ((cexChunks.length : ℤ) ≠ ⌊((cexAudio.length : ℚ) / ((3 : ℚ) * (1 / 2)))⌋) := by
  have hcs : pyInt (((3 : ℕ) : ℚ) * (1 / 2)) = 1 := by
    rw [pyInt, if_pos (by norm_num)]
    norm_num
  have h1 : ∀ (x : Frame) (l : List Frame), chunksOf 1 (x :: l) = [x] :: chunksOf 1 l := by
    intro x l
    rw [chunksOf]
    rw [dif_pos ⟨Nat.one_pos, by simp⟩]
    simp
  have h0 : chunksOf 1 ([] : List Frame) = [] := by
    rw [chunksOf]
    simp
  constructor
  · simp only [split_audio_into_chunks, hcs]
    norm_num
    simp only [cexAudio, cexChunks, h1, h0]
  · have : ((cexAudio.length : ℚ) / ((3 : ℚ) * (1 / 2))) = 2 := by
      norm_num [cexAudio]
    rw [this]
    norm_num [cexChunks]

/-- Witness for C2: at `sample_rate = 2`, `chunk_duration = 1`, a 5-frame
buffer yields two 2-frame windows holding the first 4 samples. -/
theorem chunker_window_count_and_size_witness :
    0 < pyInt (((2 : ℕ) : ℚ) * 1) ∧
      ∃ chunks,
        split_audio_into_chunks [(0, 0), (1, 1), (2, 2), (3, 3), (4, 4)] 2 1 =
            some chunks ∧
          chunks.length =
            ([(0, 0), (1, 1), (2, 2), (3, 3), (4, 4)] : List Frame).length /
              (pyInt (((2 : ℕ) : ℚ) * 1)).toNat ∧
          (∀ c ∈ chunks, c.length = (pyInt (((2 : ℕ) : ℚ) * 1)).toNat) ∧
          chunks.flatten =
            ([(0, 0), (1, 1), (2, 2), (3, 3), (4, 4)] : List Frame).take
              ((pyInt (((2 : ℕ) : ℚ) * 1)).toNat *
                (([(0, 0), (1, 1), (2, 2), (3, 3), (4, 4)] : List Frame).length /
                  (pyInt (((2 : ℕ) : ℚ) * 1)).toNat)) :=
  ⟨by rw [pyInt, if_pos (by norm_num)]; norm_num,
    chunker_window_count_and_size [(0, 0), (1, 1), (2, 2), (3, 3), (4, 4)] 2 1
      (by rw [pyInt, if_pos (by norm_num)]; norm_num)⟩

/-- `fade_len = max(1, int(sample_rate * (fade_ms / 1000.0)))` from
`crossfade_concat` (`backend/app.py`). -/
def fade_len_of (sample_rate : ℕ) (fade_ms : ℚ) : ℕ :=
  max 1 (pyInt ((sample_rate : ℚ) * (fade_ms / 1000))).toNat

/-- `np.linspace(0.0, 1.0, n)` at index `k`: NumPy returns `[0.0]` for
`n = 1`, and `k / (n - 1)` for `k < n` otherwise. -/
noncomputable def linspace01 (n k : ℕ) : ℝ :=
  if n ≤ 1 then 0 else (k : ℝ) / ((n : ℝ) - 1)

/-- Outgoing equal-power gain `np.cos(t * np.pi * 0.5) ** 2` at sample `k` of
an `n`-sample fade. -/
noncomputable def fadeOutGain (n k : ℕ) : ℝ :=
  Real.cos (linspace01 n k * Real.pi * 0.5) ^ 2

/-- Incoming equal-power gain `np.sin(t * np.pi * 0.5) ** 2` at sample `k` of
an `n`-sample fade. -/
noncomputable def fadeInGain (n k : ℕ) : ℝ :=
  Real.sin (linspace01 n k * Real.pi * 0.5) ^ 2

/-- `p.astype(np.float32) / 32768.0` on one frame. -/
noncomputable def i16ToFloat (p : Frame) : RFrame :=
  ((p.1 : ℝ) / 32768, (p.2 : ℝ) / 32768)

/-- `np.clip(x, -1.0, 1.0)` on one sample. -/
noncomputable def clip1 (x : ℝ) : ℝ := max (-1) (min 1 x)

/-- C-style float-to-integer conversion performed by `.astype(np.int16)`:
truncation toward zero (the values fed to it here are already clipped, so no
wrap-around occurs). -/
noncomputable def truncToInt (x : ℝ) : ℤ := if 0 ≤ x then ⌊x⌋ else -⌊-x⌋

/-- `(np.clip(out, -1.0, 1.0) * 32767.0).astype(np.int16)` on one frame. -/
noncomputable def floatToI16 (p : RFrame) : Frame :=
  (truncToInt (clip1 p.1 * 32767), truncToInt (clip1 p.2 * 32767))

/-- The overlapped seam `out[-fade_len:] * fade_out + nxt[:fade_len] * fade_in`
of `crossfade_concat`, given the accumulator's last `n` frames and the next
window's first `n` frames. -/
noncomputable def overlapRegion (n : ℕ) (tailPart headPart : List RFrame) :
    List RFrame :=
  (List.range n).map fun k =>
    let a := tailPart.getD k (0, 0)
    let b := headPart.getD k (0, 0)
    (a.1 * fadeOutGain n k + b.1 * fadeInGain n k,
     a.2 * fadeOutGain n k + b.2 * fadeInGain n k)

/-- One iteration of the stitcher's `for nxt in float_parts[1:]` loop: plain
concatenation when either side is not strictly longer than `fade_len`,
otherwise an equal-power crossfade over the last/first `fade_len` frames. -/
noncomputable def xfadeStep (n : ℕ) (out nxt : List RFrame) : List RFrame :=
  if n ≥ out.length ∨ n ≥ nxt.length then out ++ nxt
  else
    out.take (out.length - n) ++
      overlapRegion n (out.drop (out.length - n)) (nxt.take n) ++
        nxt.drop n

/-- `crossfade_concat(parts, sample_rate, fade_ms)` from `backend/app.py`:
zero windows give an empty result, a single window is returned unchanged
(still int16, bypassing the float conversion), and otherwise the windows are
folded through `xfadeStep` in float space, clipped, and re-quantised. -/
noncomputable def crossfade_concat (parts : List (List Frame)) (sample_rate : ℕ)
    (fade_ms : ℚ) : List Frame :=
  match parts with
  | [] => []
  | [p] => p
  | p :: q :: rest =>
    (((q :: rest).map (List.map i16ToFloat)).foldl
        (xfadeStep (fade_len_of sample_rate fade_ms))
        (p.map i16ToFloat)).map floatToI16

/-- A 100-frame silent stereo window (the spec's crossfade scenario input). -/
def zwin : List Frame := List.replicate 100 (0, 0)

/-- Valid signed 16-bit PCM range for a stereo frame. -/
abbrev frameInI16 (f : Frame) : Prop :=
  -32768 ≤ f.1 ∧ f.1 ≤ 32767 ∧ -32768 ≤ f.2 ∧ f.2 ≤ 32767

theorem overlapRegion_length (n : ℕ) (a b : List RFrame) :
    (overlapRegion n a b).length = n := by
  simp [overlapRegion]

theorem xfadeStep_length_lt (n : ℕ) (a b : List RFrame)
    (ha : n < a.length) (hb : n < b.length) :
    (xfadeStep n a b).length = a.length + b.length - n := by
  rw [xfadeStep, if_neg (by omega)]
  simp only [List.length_append, List.length_take, List.length_drop,
    overlapRegion_length]
  omega

theorem xfadeStep_length_ge (n : ℕ) (a b : List RFrame)
    (h : n ≥ a.length ∨ n ≥ b.length) :
    (xfadeStep n a b).length = a.length + b.length := by
  rw [xfadeStep, if_pos h]
  simp

theorem crossfade_two_eq (A B : List Frame) (sr : ℕ) (fms : ℚ) :
    crossfade_concat [A, B] sr fms =
      (xfadeStep (fade_len_of sr fms) (A.map i16ToFloat)
        (B.map i16ToFloat)).map floatToI16 := by
  simp [crossfade_concat]

/-- Claim C3: over two same-stem windows, if both are strictly longer than
`fade_len` the stitched output has `len(A) + len(B) - fade_len` frames, and if
both are strictly shorter than `fade_len` the stitched output has
`len(A) + len(B)` frames with no overlap applied. -/
theorem stitch_two_window_lengths (A B : List Frame) (sr : ℕ) (fms : ℚ) :
    (fade_len_of sr fms < A.length → fade_len_of sr fms < B.length →
      (crossfade_concat [A, B] sr fms).length =
        A.length + B.length - fade_len_of sr fms) ∧
    (A.length < fade_len_of sr fms → B.length < fade_len_of sr fms →
      (crossfade_concat [A, B] sr fms).length = A.length + B.length) := by
  constructor
  · intro hA hB
    rw [crossfade_two_eq, List.length_map,
      xfadeStep_length_lt _ _ _ (by simpa using hA) (by simpa using hB)]
    simp
  · intro hA hB
    rw [crossfade_two_eq, List.length_map,
      xfadeStep_length_ge _ _ _ (Or.inl (by simp; omega))]
    simp

/-- Witness for C3, the spec's own scenario: two 100-frame silent windows at
`sample_rate = 100`, `fade_ms = 10` give `fade_len = 1` and a stitched length
of 199. -/
theorem stitch_two_window_lengths_witness :
    fade_len_of 100 10 < zwin.length ∧
      (crossfade_concat [zwin, zwin] 100 10).length = 199 := by
  have hf : fade_len_of 100 10 = 1 := by
    simp only [fade_len_of, pyInt]
    norm_num
  have hlt : fade_len_of 100 10 < zwin.length := by
    rw [hf]; simp [zwin]
  refine ⟨hlt, ?_⟩
  have h := (stitch_two_window_lengths zwin zwin 100 10).1 hlt hlt
  rw [h, hf]
  simp [zwin]

/-- Claim C4 (amended): the stitcher's overlap length is
`fade_len = max(1, ⌊sample_rate * fade_ms / 1000⌋)` (truncation, with a floor
of one sample), observable as the length deficit when stitching two
sufficiently long windows.  The original claim's `round` disagrees whenever
`sample_rate * fade_ms / 1000` has fractional part `≥ 1/2` or is below one. -/
theorem fade_len_floor_formula (A B : List Frame) (sr : ℕ) (fms : ℚ)
    (hA : max 1 (Int.toNat ⌊(sr : ℚ) * (fms / 1000)⌋) < A.length)
    (hB : max 1 (Int.toNat ⌊(sr : ℚ) * (fms / 1000)⌋) < B.length) :
    (crossfade_concat [A, B] sr fms).length =
      A.length + B.length - max 1 (Int.toNat ⌊(sr : ℚ) * (fms / 1000)⌋) := by
  have he : fade_len_of sr fms = max 1 (Int.toNat ⌊(sr : ℚ) * (fms / 1000)⌋) := by
    simp only [fade_len_of, pyInt]
    split
    · rfl
    · next h =>
      have hq : (sr : ℚ) * (fms / 1000) < 0 := lt_of_not_le h
      have h1 : ⌊(sr : ℚ) * (fms / 1000)⌋ ≤ 0 := Int.floor_nonpos hq.le
      have h2 : (0 : ℤ) ≤ ⌊-((sr : ℚ) * (fms / 1000))⌋ :=
        Int.floor_nonneg.mpr (by linarith)
      omega
  rw [crossfade_two_eq, List.length_map,
    xfadeStep_length_lt _ _ _ (by simpa [he] using hA) (by simpa [he] using hB)]
  simp [he]

/-- Witness for C4 (amended): at `sample_rate = 100`, `fade_ms = 15` the
overlap really is `max(1, ⌊1.5⌋) = 1`. -/
theorem fade_len_floor_formula_witness :
    max 1 (Int.toNat ⌊((100 : ℕ) : ℚ) * ((15 : ℚ) / 1000)⌋) < zwin.length ∧
      (crossfade_concat [zwin, zwin] 100 15).length =
        zwin.length + zwin.length -
          max 1 (Int.toNat ⌊((100 : ℕ) : ℚ) * ((15 : ℚ) / 1000)⌋) := by
  have hlt : max 1 (Int.toNat ⌊((100 : ℕ) : ℚ) * ((15 : ℚ) / 1000)⌋) < zwin.length := by
    have : (((100 : ℕ) : ℚ) * ((15 : ℚ) / 1000)) = 3 / 2 := by norm_num
    rw [this]
    norm_num [zwin]
  exact ⟨hlt, fade_len_floor_formula zwin zwin 100 15 hlt hlt⟩

/-- Claim C4 (counterexample): at `sample_rate = 100`, `fade_ms = 15`, the
claim's formula `fade_len = round(100 * 15 / 1000) = round(1.5) = 2` predicts a
stitched length of `100 + 100 - 2 = 198` for two 100-frame windows, but the
code (which truncates: `max(1, int(1.5)) = 1`) produces 199 frames. -/
theorem fade_len_round_cex :
    (crossfade_concat [zwin, zwin] 100 15).length ≠
      zwin.length + zwin.length -
        (round (((100 : ℕ) : ℚ) * ((15 : ℚ) / 1000))).toNat := by
  have hq : (((100 : ℕ) : ℚ) * ((15 : ℚ) / 1000)) = 3 / 2 := by norm_num
  have hf : fade_len_of 100 15 = 1 := by
    simp only [fade_len_of, pyInt, hq]
    norm_num
  have hround : round ((3 : ℚ) / 2) = 2 := by
    rw [round_eq]
    norm_num
  have hlen : (crossfade_concat [zwin, zwin] 100 15).length = 199 := by
    have hlt : fade_len_of 100 15 < zwin.length := by rw [hf]; simp [zwin]
    rw [crossfade_two_eq, List.length_map,
      xfadeStep_length_lt _ _ _ (by simpa using hlt) (by simpa using hlt), hf]
    simp [zwin]
  rw [hlen, hq, hround]
  simp [zwin]

theorem truncToInt_clip_bounds (x : ℝ) :
    -32767 ≤ truncToInt (clip1 x * 32767) ∧
      truncToInt (clip1 x * 32767) ≤ 32767 := by
  have h1 : -1 ≤ clip1 x := le_max_left _ _
  have h2 : clip1 x ≤ 1 := max_le (by norm_num) (min_le_left _ _)
  have hlo : (-32767 : ℝ) ≤ clip1 x * 32767 := by nlinarith
  have hhi : clip1 x * 32767 ≤ 32767 := by nlinarith
  rw [truncToInt]
  split
  · next hx =>
    constructor
    · have : (0 : ℤ) ≤ ⌊clip1 x * 32767⌋ := Int.floor_nonneg.mpr hx
      omega
    · have h3 : ⌊clip1 x * 32767⌋ ≤ ⌊(32767 : ℝ)⌋ := Int.floor_le_floor hhi
      have h4 : ⌊(32767 : ℝ)⌋ = 32767 := by norm_num
      omega
  · next hx =>
    push_neg at hx
    constructor
    · have h3 : ⌊-(clip1 x * 32767)⌋ ≤ ⌊(32767 : ℝ)⌋ :=
        Int.floor_le_floor (by linarith)
      have h4 : ⌊(32767 : ℝ)⌋ = 32767 := by norm_num
      omega
    · have : (0 : ℤ) ≤ ⌊-(clip1 x * 32767)⌋ := Int.floor_nonneg.mpr (by linarith)
      omega

theorem floatToI16_mem (p : RFrame) : frameInI16 (floatToI16 p) := by
  obtain ⟨hl1, hl2⟩ := truncToInt_clip_bounds p.1
  obtain ⟨hr1, hr2⟩ := truncToInt_clip_bounds p.2
  exact ⟨by simp only [floatToI16]; omega, by simp only [floatToI16]; omega,
    by simp only [floatToI16]; omega, by simp only [floatToI16]; omega⟩

/-- Claim C8: if every input sample lies in the signed 16-bit range, then every
sample of the stitcher's output does too — via the clip-and-requantise step in
the multi-window case, and directly from the (int16) input in the zero- and
single-window cases that bypass the float conversion. -/
theorem stitcher_output_in_i16_range (parts : List (List Frame)) (sr : ℕ)
    (fms : ℚ) (h : ∀ w ∈ parts, ∀ f ∈ w, frameInI16 f) :
    ∀ f ∈ crossfade_concat parts sr fms, frameInI16 f := by
  match parts with
  | [] =>
    intro f hf
    simp only [crossfade_concat] at hf
    simp at hf
  | [p] =>
    intro f hf
    simp only [crossfade_concat] at hf
    exact h p (by simp) f hf
  | p :: q :: rest =>
    intro f hf
    simp only [crossfade_concat] at hf
    rw [List.mem_map] at hf
    obtain ⟨x, _, rfl⟩ := hf
    exact floatToI16_mem x

/-- Witness for C8: a single extreme-valued window passes through in range. -/
theorem stitcher_output_in_i16_range_witness :
    (∀ w ∈ [[((32767 : ℤ), (-32768 : ℤ))]], ∀ f ∈ w, frameInI16 f) ∧
      ∀ f ∈ crossfade_concat [[((32767 : ℤ), (-32768 : ℤ))]] 44100 10,
        frameInI16 f :=
  ⟨by decide, stitcher_output_in_i16_range _ 44100 10 (by decide)⟩

/-- The clamped sub-range extraction of `pitch_shift_preview`
(`backend/pitch.py` lines 50-58): `n0 = max(0, int(start_s * sr))`,
`n1 = min(len(audio), n0 + int(dur_s * sr))`, empty when `n1 <= n0`, else the
slice `audio_i16[n0:n1]`. -/
def extract_clip (audio : List Frame) (sr : ℕ) (start_s dur_s : ℚ) :
    List Frame :=
  let n0 : ℤ := max 0 (pyInt (start_s * (sr : ℚ)))
  let n1 : ℤ := min (audio.length : ℤ) (n0 + pyInt (dur_s * (sr : ℚ)))
  if n1 ≤ n0 then []
  else (audio.drop n0.toNat).take (n1 - n0).toNat

/-- The tail of `_ffmpeg_pitch_shift` (`backend/pitch.py` lines 83-95) applied
to a successful ffmpeg result `y` (the decoded float frames, already
stereo-normalised): clip, re-quantise to int16, then truncate or zero-pad to
the extracted clip's length. -/
noncomputable def ffmpeg_fit (clip_i16 : List Frame) (y : List RFrame) :
    List Frame :=
  let y_i16 := y.map floatToI16
  if clip_i16.length ≤ y_i16.length then y_i16.take clip_i16.length
  else y_i16 ++ List.replicate (clip_i16.length - y_i16.length) ((0, 0) : Frame)

/-- `pitch_shift_preview(audio_i16, sr, semitones, start_s, dur_s)` from
`backend/pitch.py`, returning the int16 frames that get WAV-encoded by the
final `sf.write` (the payload bytes are a function of these frames and `sr`).
The external ffmpeg pitch-shift subprocess is the oracle `ffmpegOut`: `none`
models a nonzero exit status or empty stdout, which raises inside
`_ffmpeg_pitch_shift`'s `try` and is caught by its `except`, returning the
unshifted clip; `some y` models a successful call decoded by `sf.read`. -/
noncomputable def pitch_shift_preview (audio : List Frame) (sr : ℕ)
    (semitones : ℚ) (start_s dur_s : ℚ) (ffmpegOut : Option (List RFrame)) :
    List Frame :=
  let n0 : ℤ := max 0 (pyInt (start_s * (sr : ℚ)))
  let n1 : ℤ := min (audio.length : ℤ) (n0 + pyInt (dur_s * (sr : ℚ)))
  if n1 ≤ n0 then []
  else
    let clip := (audio.drop n0.toNat).take (n1 - n0).toNat
    if |semitones| < 1 / 1000000 then clip
    else
      match ffmpegOut with
      | none => clip
      | some y => ffmpeg_fit clip y

theorem pitch_preview_length_helper (audio : List Frame) (sr : ℕ)
    (semitones start_s dur_s : ℚ) (ffmpegOut : Option (List RFrame))
    (h : 1 / 1000000 ≤ |semitones|) :
    (pitch_shift_preview audio sr semitones start_s dur_s ffmpegOut).length =
      (extract_clip audio sr start_s dur_s).length := by
  have hne : ¬ (|semitones| < 1 / 1000000) := not_lt.mpr h
  cases ffmpegOut with
  | none => simp only [pitch_shift_preview, extract_clip, hne, if_false]
  | some y =>
    simp only [pitch_shift_preview, extract_clip, hne, if_false]
    split
    · rfl
    · simp only [ffmpeg_fit]
      split
      · next h2 => rw [List.length_take_of_le h2]
      · next h2 =>
        rw [List.length_append, List.length_replicate]
        omega

/-- Claim C6: when the requested shift is numerically indistinguishable from
zero (`abs(semitones) < 1e-6`), the preview's payload is exactly the unshifted
extracted sub-range, independently of the ffmpeg oracle (the tool is never
consulted); since the WAV encoding is a deterministic function of the frames
and the sample rate, the returned bytes are byte-identical to the encoding of
that sub-range. -/
theorem pitch_preview_zero_shift_identity (audio : List Frame) (sr : ℕ)
    (semitones : ℚ) (start_s dur_s : ℚ) (ffmpegOut : Option (List RFrame))
    (h : |semitones| < 1 / 1000000) :
    pitch_shift_preview audio sr semitones start_s dur_s ffmpegOut =
      extract_clip audio sr start_s dur_s := by
  simp only [pitch_shift_preview, extract_clip, h, if_true]

/-- Witness for C6: `semitones = 0` on a two-frame buffer. -/
theorem pitch_preview_zero_shift_identity_witness :
    |(0 : ℚ)| < 1 / 1000000 ∧
      pitch_shift_preview [(1, 2), (3, 4)] 1 0 0 1 (some [(1, 1)]) =
        extract_clip [(1, 2), (3, 4)] 1 0 1 :=
  ⟨by norm_num,
    pitch_preview_zero_shift_identity [(1, 2), (3, 4)] 1 0 0 1 (some [(1, 1)])
      (by norm_num)⟩

/-- Claim C10: on a nonzero shift whose external pitch-shift invocation fails
(nonzero exit status or empty output, oracle `none`), `pitch_shift_preview`
raises nothing and returns exactly the unshifted extracted clip — the caller
gets unshifted audio with no error indication. -/
theorem pitch_preview_tool_failure_silent (audio : List Frame) (sr : ℕ)
    (semitones : ℚ) (start_s dur_s : ℚ) (h : 1 / 1000000 ≤ |semitones|) :
    pitch_shift_preview audio sr semitones start_s dur_s none =
      extract_clip audio sr start_s dur_s := by
  have hne : ¬ (|semitones| < 1 / 1000000) := not_lt.mpr h
  simp only [pitch_shift_preview, extract_clip, hne, if_false]

/-- Witness for C10: a failing tool call at `semitones = 2`. -/
theorem pitch_preview_tool_failure_silent_witness :
    (1 : ℚ) / 1000000 ≤ |(2 : ℚ)| ∧
      pitch_shift_preview [(1, 2), (3, 4)] 1 2 0 1 none =
        extract_clip [(1, 2), (3, 4)] 1 0 1 :=
  ⟨by norm_num,
    pitch_preview_tool_failure_silent [(1, 2), (3, 4)] 1 2 0 1 (by norm_num)⟩

/-- Claim C7 (amended): on a nonzero shift, the result is truncated or
zero-padded to exactly the length of the *clamped* extracted clip
(`n1 - n0` samples), not to the originally requested `dur_s * sr` sample
count — when the clamped window is shorter than requested, the output matches
the clamped length. This holds for every ffmpeg oracle outcome. -/
theorem pitch_preview_output_length (audio : List Frame) (sr : ℕ)
    (semitones : ℚ) (start_s dur_s : ℚ) (ffmpegOut : Option (List RFrame))
    (h : 1 / 1000000 ≤ |semitones|) :
    (pitch_shift_preview audio sr semitones start_s dur_s ffmpegOut).length =
      (extract_clip audio sr start_s dur_s).length :=
  pitch_preview_length_helper audio sr semitones start_s dur_s ffmpegOut h

/-- Witness for C7 (amended): requested duration 2 s at 100 Hz (200 samples)
against a 100-frame buffer; the output length equals the clamped clip's 100
frames whatever the tool returns. -/
theorem pitch_preview_output_length_witness :
    (1 : ℚ) / 1000000 ≤ |(1 : ℚ)| ∧
      (pitch_shift_preview (List.replicate 100 ((0, 0) : Frame)) 100 1 0 2
          (some (List.replicate 5 ((0, 0) : RFrame)))).length =
        (extract_clip (List.replicate 100 ((0, 0) : Frame)) 100 0 2).length :=
  ⟨by norm_num,
    pitch_preview_output_length (List.replicate 100 ((0, 0) : Frame)) 100 1 0 2
      (some (List.replicate 5 ((0, 0) : RFrame))) (by norm_num)⟩

/-- Claim C7 (counterexample): a 100-frame buffer at `sr = 100` with
`start = 0`, `dur = 2` requests `int(dur_s * sr) = 200` samples; with a
successful tool call returning 5 frames the code pads only to the clamped
clip's 100 frames, not to the requested 200. -/
theorem pitch_preview_requested_length_cex :
    (pitch_shift_preview (List.replicate 100 ((0, 0) : Frame)) 100 1 0 2
        (some (List.replicate 5 ((0, 0) : RFrame)))).length ≠
      (pyInt ((2 : ℚ) * ((100 : ℕ) : ℚ))).toNat := by
  have h0 : pyInt ((0 : ℚ) * ((100 : ℕ) : ℚ)) = 0 := by
    rw [pyInt, if_pos (by norm_num)]
    norm_num
  have h200 : pyInt ((2 : ℚ) * ((100 : ℕ) : ℚ)) = 200 := by
    rw [pyInt, if_pos (by norm_num)]
    norm_num
  have hclip : (extract_clip (List.replicate 100 ((0, 0) : Frame)) 100 0 2).length
      = 100 := by
    simp only [extract_clip, h0, h200, List.length_replicate]
    norm_num [List.length_take, List.length_drop]
    decide
  have hlen := pitch_preview_length_helper (List.replicate 100 ((0, 0) : Frame))
    100 1 0 2 (some (List.replicate 5 ((0, 0) : RFrame))) (by norm_num)
  rw [hlen, hclip, h200]
  decide

/-- One separation output: the ordered `separated.items()` of
`process(audio_array=chunk, ...)` — a mapping from stem name to separated
PCM window. -/
abbrev SepOut := List (String × List Frame)

/-- The set of stem names present in one separation output. -/
def stemNames (out : SepOut) : Finset String := (out.map Prod.fst).toFinset

/-- The observable per-session record kept in `SESSIONS[session_id]`, plus the
artifacts persisted under the session folder. `ready` is the
`stem -> set of chunk indices` dictionary, modelled as a total function
defaulting to `∅`; `chunkArts` records each `sf.write` of a
`chunk_{i:03d}_{stem}.wav` per-chunk artifact as `(index, stem, frames)`
(the name pair determines the filename); `stemArts` records each continuous
`{stem}.wav` artifact. -/
structure WState where
  total_chunks : ℕ
  ready : String → Finset ℕ
  stems : Finset String
  done : Bool
  error : Option String
  chunkArts : List (ℕ × String × List Frame)
  stemArts : List (String × List Frame)

/-- The in-memory `stem_buffers` dictionary (insertion-ordered, like a Python
dict): stem name to the list of that stem's per-chunk windows. -/
abbrev Buffers := List (String × List (List Frame))

/-- `stem_buffers.setdefault(stem_name, []).append(stem_audio)`. -/
def bufAdd (bufs : Buffers) (s : String) (a : List Frame) : Buffers :=
  if bufs.any (fun p => p.1 == s) then
    bufs.map (fun p => if p.1 = s then (p.1, p.2 ++ [a]) else p)
  else bufs ++ [(s, [a])]

/-- The body of `for stem_name, stem_audio in separated.items()` as it touches
the session record: discover the stem, persist the per-chunk artifact, and add
chunk `i` to the stem's readiness set. -/
def addStem (i : ℕ) (st : WState) (s : String) (a : List Frame) : WState :=
  { st with
    stems := insert s st.stems,
    chunkArts := st.chunkArts ++ [(i, s, a)],
    ready := fun t => if t = s then insert i (st.ready t) else st.ready t }

/-- One `separated.items()` entry: session-record update plus buffer append. -/
def stepStem (i : ℕ) (acc : WState × Buffers) (p : String × List Frame) :
    WState × Buffers :=
  (addStem i acc.1 p.1 p.2, bufAdd acc.2 p.1 p.2)

/-- Processing of one separated chunk: the full inner `for` loop. -/
def processChunk (i : ℕ) (out : SepOut) (acc : WState × Buffers) :
    WState × Buffers :=
  out.foldl (stepStem i) acc

/-- The post-loop stitching `for stem_name, parts in stem_buffers.items()`
with `fade_ms=10.0`, followed by `SESSIONS[session_id]['done'] = True`
(`process_session`). -/
noncomputable def finishLocal (sr : ℕ) (st : WState) (bufs : Buffers) :
    WState :=
  { st with
    stemArts := bufs.map fun p => (p.1, crossfade_concat p.2 sr 10),
    done := true }

/-- The same epilogue in `process_stream`, which additionally settles
`total_chunks = chunk_index` just before `done = True`. -/
noncomputable def finishStream (sr : ℕ) (i : ℕ) (st : WState) (bufs : Buffers) :
    WState :=
  { st with
    stemArts := bufs.map fun p => (p.1, crossfade_concat p.2 sr 10),
    total_chunks := i,
    done := true }

/-- The `for i, chunk in enumerate(chunks)` loop of `process_session`
(`backend/app.py` lines 227-253). The separation collaborator is the oracle
`sep`, indexed by chunk number and fed the chunk; `Except.error` models an
exception raised by `process` or by persistence, caught by the worker's
`except`, which records the message and stops (`done` stays false and no
stitching happens). -/
noncomputable def runLocal (sep : ℕ → List Frame → Except String SepOut)
    (sr : ℕ) : List (List Frame) → ℕ → WState × Buffers → WState
  | [], _, acc => finishLocal sr acc.1 acc.2
  | c :: cs, i, acc =>
    match sep i c with
    | .error e => { acc.1 with error := some e }
    | .ok out => runLocal sep sr cs (i + 1) (processChunk i out acc)

/-- The session record as created by `upload_audio`: `total_chunks` is fixed
at creation to the number of chunks, everything else starts empty. -/
def initState (n : ℕ) : WState :=
  { total_chunks := n
    ready := fun _ => ∅
    stems := ∅
    done := false
    error := none
    chunkArts := []
    stemArts := [] }

/-- A local session's worker, from session creation through `process_session`
to worker termination. -/
noncomputable def process_session (sep : ℕ → List Frame → Except String SepOut)
    (sr : ℕ) (chunks : List (List Frame)) : WState :=
  runLocal sep sr chunks 0 (initState chunks.length, [])

/-- The `while True` fetch loop of `process_stream` (`backend/app.py` lines
538-567). The Remote Window Fetcher `_read_remote_chunk_wav` is the oracle
`fetch`, indexed by chunk number (the code calls it at
`start = chunk_index * chunk_duration`): `none` is the no-data sentinel
(ffmpeg nonzero exit or empty stdout), and an explicitly empty window also
ends the loop, per `if audio_chunk is None or len(audio_chunk) == 0`. `fuel`
bounds the unrolling of the source's unbounded loop; at fuel 0 the state is
returned as-is (the loop is still running, `done` stays false). -/
noncomputable def runStream (fetch : ℕ → Option (List Frame))
    (sep : ℕ → List Frame → Except String SepOut) (sr : ℕ) :
    ℕ → ℕ → WState × Buffers → WState
  | 0, _, acc => acc.1
  | fuel + 1, i, acc =>
    match fetch i with
    | none => finishStream sr i acc.1 acc.2
    | some [] => finishStream sr i acc.1 acc.2
    | some c =>
      match sep i c with
      | .error e => { acc.1 with error := some e }
      | .ok out => runStream fetch sep sr fuel (i + 1) (processChunk i out acc)

/-- A remote session's worker (`yt_start_session` + `process_stream`):
`total_chunks` starts at 0, and when no audio stream URL was resolved the
loop breaks immediately at index 0. -/
noncomputable def process_stream (audioUrl : Bool)
    (fetch : ℕ → Option (List Frame))
    (sep : ℕ → List Frame → Except String SepOut) (sr fuel : ℕ) : WState :=
  if audioUrl then runStream fetch sep sr fuel 0 (initState 0, [])
  else finishStream sr 0 (initState 0) []

/-- Worker-loop invariant after chunks `0 … idx-1` were processed, for a
separation collaborator whose discovered stem set is constantly `S`. -/
def WInv (S : Finset String) (idx : ℕ) (st : WState) : Prop :=
  st.done = false ∧
  st.stems = (if idx = 0 then ∅ else S) ∧
  (∀ s, st.ready s = if s ∈ st.stems then Finset.range idx else ∅) ∧
  (∀ j s, (∃ a, (j, s, a) ∈ st.chunkArts) ↔ j < idx ∧ s ∈ S)

/-- A terminal state whose readiness sets are exactly `{0, …, n-1}` on every
discovered stem, with a persisted chunk artifact for every (index, stem)
pair. -/
def readyComplete (fin : WState) (n : ℕ) : Prop :=
  ∀ s ∈ fin.stems,
    fin.ready s = Finset.range n ∧ ∀ j < n, ∃ a, (j, s, a) ∈ fin.chunkArts

theorem processChunk_nil (i : ℕ) (acc : WState × Buffers) :
    processChunk i [] acc = acc := rfl

theorem processChunk_cons (i : ℕ) (p : String × List Frame) (t : SepOut)
    (acc : WState × Buffers) :
    processChunk i (p :: t) acc = processChunk i t (stepStem i acc p) := rfl

theorem processChunk_fst_misc (i : ℕ) (out : SepOut) (acc : WState × Buffers) :
    (processChunk i out acc).1.done = acc.1.done ∧
      (processChunk i out acc).1.total_chunks = acc.1.total_chunks ∧
      (processChunk i out acc).1.error = acc.1.error ∧
      (processChunk i out acc).1.stemArts = acc.1.stemArts := by
  induction out generalizing acc with
  | nil => exact ⟨rfl, rfl, rfl, rfl⟩
  | cons p t ih => exact ih (stepStem i acc p)

theorem processChunk_ready (i : ℕ) (out : SepOut) (acc : WState × Buffers)
    (s : String) :
    (processChunk i out acc).1.ready s =
      if s ∈ out.map Prod.fst then insert i (acc.1.ready s)
      else acc.1.ready s := by
  induction out generalizing acc with
  | nil => simp [processChunk_nil]
  | cons p t ih =>
    rw [processChunk_cons, ih]
    have hstep : (stepStem i acc p).1.ready s =
        if s = p.1 then insert i (acc.1.ready s) else acc.1.ready s := rfl
    rw [hstep]
    by_cases h1 : s ∈ t.map Prod.fst <;> by_cases h2 : s = p.1 <;>
      simp [h1, h2, Finset.insert_idem, List.map_cons]

theorem processChunk_stems (i : ℕ) (out : SepOut) (acc : WState × Buffers) :
    (processChunk i out acc).1.stems = acc.1.stems ∪ stemNames out := by
  induction out generalizing acc with
  | nil => simp [processChunk_nil, stemNames]
  | cons p t ih =>
    rw [processChunk_cons, ih]
    have hstep : (stepStem i acc p).1.stems = insert p.1 acc.1.stems := rfl
    rw [hstep]
    simp [stemNames, Finset.insert_union, Finset.union_insert]

theorem processChunk_chunkArts (i : ℕ) (out : SepOut) (acc : WState × Buffers) :
    (processChunk i out acc).1.chunkArts =
      acc.1.chunkArts ++ out.map (fun p => (i, p.1, p.2)) := by
  induction out generalizing acc with
  | nil => simp [processChunk_nil]
  | cons p t ih =>
    rw [processChunk_cons, ih]
    have hstep : (stepStem i acc p).1.chunkArts =
        acc.1.chunkArts ++ [(i, p.1, p.2)] := rfl
    rw [hstep]
    simp

theorem WInv_step (S : Finset String) (idx : ℕ) (st : WState) (bufs : Buffers)
    (out : SepOut) (hinv : WInv S idx st) (hout : stemNames out = S) :
    WInv S (idx + 1) (processChunk idx out (st, bufs)).1 := by
  obtain ⟨hdone, hstems, hready, harts⟩ := hinv
  have hmem : ∀ s : String, s ∈ out.map Prod.fst ↔ s ∈ S := by
    intro s
    rw [← hout, stemNames, List.mem_toFinset]
  have hnew : ∀ j s, (∃ a, (j, s, a) ∈ out.map (fun p => (idx, p.1, p.2))) ↔
      (j = idx ∧ s ∈ out.map Prod.fst) := by
    intro j s
    simp only [List.mem_map, Prod.mk.injEq]
    constructor
    · rintro ⟨a, p, hp, h1, h2, h3⟩
      exact ⟨h1.symm, p, hp, h2⟩
    · rintro ⟨rfl, p, hp, hps⟩
      exact ⟨p.2, p, hp, rfl, hps, rfl⟩
  refine ⟨?_, ?_, ?_, ?_⟩
  · rw [(processChunk_fst_misc idx out (st, bufs)).1]
    exact hdone
  · rw [processChunk_stems, hout]
    show st.stems ∪ S = _
    rw [hstems]
    by_cases h0 : idx = 0 <;> simp [h0]
  · intro s
    rw [processChunk_ready, processChunk_stems, hout]
    show (if s ∈ out.map Prod.fst then insert idx (st.ready s) else st.ready s) =
      if s ∈ st.stems ∪ S then Finset.range (idx + 1) else ∅
    rw [hready s]
    by_cases hs : s ∈ S
    · rw [if_pos ((hmem s).mpr hs), if_pos (Finset.mem_union_right _ hs)]
      by_cases h0 : idx = 0
      · subst h0
        rw [hstems]
        simp [Finset.range_one]
      · have hS : st.stems = S := by rw [hstems, if_neg h0]
        rw [hS, if_pos hs, Finset.range_succ]
    · have hs1 : s ∉ out.map Prod.fst := fun hc => hs ((hmem s).mp hc)
      have hs2 : s ∉ st.stems := by
        rw [hstems]
        by_cases h0 : idx = 0 <;> simp [h0, hs]
      rw [if_neg hs1, if_neg hs2,
        if_neg (by simp [Finset.mem_union, hs, hs2])]
  · intro j s
    rw [processChunk_chunkArts]
    constructor
    · rintro ⟨a, ha⟩
      rcases List.mem_append.mp ha with ha | ha
      · have := (harts j s).mp ⟨a, ha⟩
        exact ⟨by omega, this.2⟩
      · have := (hnew j s).mp ⟨a, ha⟩
        exact ⟨by omega, (hmem s).mp this.2⟩
    · rintro ⟨hj, hs⟩
      by_cases hji : j < idx
      · obtain ⟨a, ha⟩ := (harts j s).mpr ⟨hji, hs⟩
        exact ⟨a, List.mem_append.mpr (Or.inl ha)⟩
      · have hj' : j = idx := by omega
        obtain ⟨a, ha⟩ := (hnew j s).mpr ⟨hj', (hmem s).mpr hs⟩
        exact ⟨a, List.mem_append.mpr (Or.inr ha)⟩

theorem WInv_init (S : Finset String) (n : ℕ) : WInv S 0 (initState n) := by
  refine ⟨rfl, by simp [initState], ?_, ?_⟩
  · intro s
    simp [initState]
  · intro j s
    simp [initState]

theorem readyComplete_of_inv (S : Finset String) (idx : ℕ) (st : WState)
    (hinv : WInv S idx st) (fin : WState)
    (hstems : fin.stems = st.stems) (hready : fin.ready = st.ready)
    (harts : fin.chunkArts = st.chunkArts) :
    readyComplete fin idx := by
  obtain ⟨hdone, hst, hr, ha⟩ := hinv
  intro s hs
  rw [hstems, hst] at hs
  by_cases h0 : idx = 0
  · rw [if_pos h0] at hs
    exact absurd hs (by simp)
  · rw [if_neg h0] at hs
    constructor
    · rw [hready, hr s, hst, if_neg h0, if_pos hs]
    · intro j hj
      rw [harts]
      exact (ha j s).mpr ⟨hj, hs⟩

theorem runLocal_spec (sep : ℕ → List Frame → Except String SepOut) (sr : ℕ)
    (S : Finset String)
    (huni : ∀ i c out, sep i c = Except.ok out → stemNames out = S) :
    ∀ (rest : List (List Frame)) (idx : ℕ) (st : WState) (bufs : Buffers),
      WInv S idx st →
        (runLocal sep sr rest idx (st, bufs)).total_chunks = st.total_chunks ∧
        ((runLocal sep sr rest idx (st, bufs)).done = true →
          readyComplete (runLocal sep sr rest idx (st, bufs))
            (idx + rest.length)) := by
  intro rest
  induction rest with
  | nil =>
    intro idx st bufs hinv
    constructor
    · rfl
    · intro _
      exact readyComplete_of_inv S idx st hinv _ rfl rfl rfl
  | cons c cs ih =>
    intro idx st bufs hinv
    rcases hsep : sep idx c with e | out
    · have hred : runLocal sep sr (c :: cs) idx (st, bufs) =
          { st with error := some e } := by
        simp only [runLocal, hsep]
      rw [hred]
      constructor
      · rfl
      · intro hd
        have hd' : st.done = true := hd
        rw [hinv.1] at hd'
        simp at hd'
    · have hout : stemNames out = S := huni idx c out hsep
      have hred : runLocal sep sr (c :: cs) idx (st, bufs) =
          runLocal sep sr cs (idx + 1) (processChunk idx out (st, bufs)) := by
        simp only [runLocal, hsep]
      have hstep := WInv_step S idx st bufs out hinv hout
      have hih := ih (idx + 1) (processChunk idx out (st, bufs)).1
        (processChunk idx out (st, bufs)).2 hstep
      have harith : idx + 1 + cs.length = idx + (c :: cs).length := by
        simp [List.length_cons]
        omega
      rw [hred]
      constructor
      · rw [hih.1, (processChunk_fst_misc idx out (st, bufs)).2.1]
      · intro hd
        have := hih.2 hd
        rwa [harith] at this

theorem runStream_inv (fetch : ℕ → Option (List Frame))
    (sep : ℕ → List Frame → Except String SepOut) (sr : ℕ) (S : Finset String)
    (huni : ∀ i c out, sep i c = Except.ok out → stemNames out = S) :
    ∀ (fuel idx : ℕ) (st : WState) (bufs : Buffers),
      WInv S idx st →
        (runStream fetch sep sr fuel idx (st, bufs)).done = true →
          readyComplete (runStream fetch sep sr fuel idx (st, bufs))
            (runStream fetch sep sr fuel idx (st, bufs)).total_chunks := by
  intro fuel
  induction fuel with
  | zero =>
    intro idx st bufs hinv hd
    have hd' : st.done = true := hd
    rw [hinv.1] at hd'
    simp at hd'
  | succ fuel ih =>
    intro idx st bufs hinv hd
    rcases hf : fetch idx with _ | c
    · have hred : runStream fetch sep sr (fuel + 1) idx (st, bufs) =
          finishStream sr idx st bufs := by
        simp only [runStream, hf]
      rw [hred]
      exact readyComplete_of_inv S idx st hinv _ rfl rfl rfl
    · cases c with
      | nil =>
        have hred : runStream fetch sep sr (fuel + 1) idx (st, bufs) =
            finishStream sr idx st bufs := by
          simp only [runStream, hf]
        rw [hred]
        exact readyComplete_of_inv S idx st hinv _ rfl rfl rfl
      | cons a l =>
        rcases hsep : sep idx (a :: l) with e | out
        · have hred : runStream fetch sep sr (fuel + 1) idx (st, bufs) =
              { st with error := some e } := by
            simp only [runStream, hf, hsep]
          rw [hred] at hd
          have hd' : st.done = true := hd
          rw [hinv.1] at hd'
          simp at hd'
        · have hred : runStream fetch sep sr (fuel + 1) idx (st, bufs) =
              runStream fetch sep sr fuel (idx + 1)
                (processChunk idx out (st, bufs)) := by
            simp only [runStream, hf, hsep]
          rw [hred] at hd ⊢
          exact ih (idx + 1) (processChunk idx out (st, bufs)).1
            (processChunk idx out (st, bufs)).2
            (WInv_step S idx st bufs out hinv (huni idx (a :: l) out hsep)) hd

theorem runStream_total (fetch : ℕ → Option (List Frame))
    (sep : ℕ → List Frame → Except String SepOut) (sr : ℕ) :
    ∀ (m fuel idx : ℕ) (st : WState) (bufs : Buffers), m < fuel →
      (∀ j, j < m → ∃ c, fetch (idx + j) = some c ∧ c ≠ []) →
      (fetch (idx + m) = none ∨ fetch (idx + m) = some []) →
      (∀ j c, j < m → fetch (idx + j) = some c →
        ∃ out, sep (idx + j) c = Except.ok out) →
      (runStream fetch sep sr fuel idx (st, bufs)).total_chunks = idx + m ∧
        (runStream fetch sep sr fuel idx (st, bufs)).done = true := by
  intro m
  induction m with
  | zero =>
    intro fuel idx st bufs hfuel _ hsent _
    obtain ⟨fuel, rfl⟩ : ∃ f, fuel = f + 1 := ⟨fuel - 1, by omega⟩
    rw [Nat.add_zero] at hsent
    rcases hsent with hs | hs
    · have hred : runStream fetch sep sr (fuel + 1) idx (st, bufs) =
          finishStream sr idx st bufs := by
        simp only [runStream, hs]
      rw [hred]
      exact ⟨rfl, rfl⟩
    · have hred : runStream fetch sep sr (fuel + 1) idx (st, bufs) =
          finishStream sr idx st bufs := by
        simp only [runStream, hs]
      rw [hred]
      exact ⟨rfl, rfl⟩
  | succ m ih =>
    intro fuel idx st bufs hfuel hok hsent hsep
    obtain ⟨fuel, rfl⟩ : ∃ f, fuel = f + 1 := ⟨fuel - 1, by omega⟩
    obtain ⟨c, hc, hcne⟩ := hok 0 (by omega)
    rw [Nat.add_zero] at hc
    obtain ⟨out, hout⟩ := hsep 0 c (by omega) (by rwa [Nat.add_zero])
    rw [Nat.add_zero] at hout
    obtain ⟨a, l, rfl⟩ : ∃ a l, c = a :: l := by
      cases c with
      | nil => simp at hcne
      | cons a l => exact ⟨a, l, rfl⟩
    have hred : runStream fetch sep sr (fuel + 1) idx (st, bufs) =
        runStream fetch sep sr fuel (idx + 1)
          (processChunk idx out (st, bufs)) := by
      simp only [runStream, hc, hout]
    rw [hred]
    have hih := ih fuel (idx + 1) (processChunk idx out (st, bufs)).1
      (processChunk idx out (st, bufs)).2 (by omega)
      (by
        intro j hj
        have := hok (j + 1) (by omega)
        rwa [show idx + (j + 1) = idx + 1 + j by omega] at this)
      (by rwa [show idx + 1 + m = idx + (m + 1) by omega])
      (by
        intro j c hj hfc
        have := hsep (j + 1) c (by omega)
          (by rwa [show idx + (j + 1) = idx + 1 + j by omega])
        rwa [show idx + (j + 1) = idx + 1 + j by omega] at this)
    exact ⟨by rw [hih.1]; omega, hih.2⟩

/-- Claim C1: for every session — local (`process_session`) or remote
(`process_stream`) — once `done = True`, the readiness set of every discovered
stem equals exactly `{0, …, total_chunks - 1}`, and a per-chunk artifact for
that stem was persisted for every chunk index below `total_chunks`. The
separation collaborator is assumed to discover the same stem set `S` on every
successful call, which holds for the fixed loaded model: in
`audio_separation.process` the returned keys are determined by
`model.sources` and the model output shape, constant across calls. -/
theorem done_readiness_complete
    (sep : ℕ → List Frame → Except String SepOut) (S : Finset String)
    (huni : ∀ i c out, sep i c = Except.ok out → stemNames out = S) :
    (∀ (sr : ℕ) (chunks : List (List Frame)),
      (process_session sep sr chunks).done = true →
        ∀ s ∈ (process_session sep sr chunks).stems,
          (process_session sep sr chunks).ready s =
            Finset.range (process_session sep sr chunks).total_chunks ∧
          ∀ j < (process_session sep sr chunks).total_chunks,
            ∃ a, (j, s, a) ∈ (process_session sep sr chunks).chunkArts) ∧
    (∀ (sr fuel : ℕ) (fetch : ℕ → Option (List Frame)),
      (process_stream true fetch sep sr fuel).done = true →
        ∀ s ∈ (process_stream true fetch sep sr fuel).stems,
          (process_stream true fetch sep sr fuel).ready s =
            Finset.range (process_stream true fetch sep sr fuel).total_chunks ∧
          ∀ j < (process_stream true fetch sep sr fuel).total_chunks,
            ∃ a, (j, s, a) ∈ (process_stream true fetch sep sr fuel).chunkArts) := by
  constructor
  · intro sr chunks
    simp only [process_session]
    intro hd s hs
    have hspec := runLocal_spec sep sr S huni chunks 0 (initState chunks.length)
      [] (WInv_init S chunks.length)
    have hrc := hspec.2 hd
    rw [Nat.zero_add] at hrc
    have h := hrc s hs
    rw [hspec.1]
    exact h
  · intro sr fuel fetch
    have hps : process_stream true fetch sep sr fuel =
        runStream fetch sep sr fuel 0 (initState 0, []) := by
      simp [process_stream]
    rw [hps]
    intro hd s hs
    exact runStream_inv fetch sep sr S huni fuel 0 (initState 0) []
      (WInv_init S 0) hd s hs

/-- Concrete separation oracle for witnesses: every chunk yields the stems
`vocals` and `drums`. -/
def wSep : ℕ → List Frame → Except String SepOut :=
  fun _ c => Except.ok [("vocals", c), ("drums", c)]

/-- The constant stem set discovered by `wSep`. -/
def wStems : Finset String := {"vocals", "drums"}

/-- Witness for C1: a one-chunk local session under the two-stem oracle,
with `done = True` reached and the readiness conclusion instantiated. -/
theorem done_readiness_complete_witness :
    (∀ i c out, wSep i c = Except.ok out → stemNames out = wStems) ∧
      (process_session wSep 44100 [[(1, 1)]]).done = true ∧
      ∀ s ∈ (process_session wSep 44100 [[(1, 1)]]).stems,
        (process_session wSep 44100 [[(1, 1)]]).ready s =
          Finset.range (process_session wSep 44100 [[(1, 1)]]).total_chunks ∧
        ∀ j < (process_session wSep 44100 [[(1, 1)]]).total_chunks,
          ∃ a, (j, s, a) ∈ (process_session wSep 44100 [[(1, 1)]]).chunkArts := by
  have huni : ∀ i c out, wSep i c = Except.ok out → stemNames out = wStems := by
    intro i c out h
    cases h
    simp [stemNames, wStems]
  have hdone : (process_session wSep 44100 [[(1, 1)]]).done = true := rfl
  exact ⟨huni, hdone,
    (done_readiness_complete wSep wStems huni).1 44100 [[(1, 1)]] hdone⟩

/-- Claim C5: in a remote session whose fetcher returns nonempty windows at
indices `0 … k-1` and the no-data sentinel at index `k` (decode failure
`none`, or an empty window), with the separation calls succeeding on those
chunks, `total_chunks` settles at exactly `k`, and is set by the time `done`
becomes true (`fuel` is any loop-unrolling bound large enough to reach
index `k`). -/
theorem remote_total_chunks_settles (fetch : ℕ → Option (List Frame))
    (sep : ℕ → List Frame → Except String SepOut) (sr k fuel : ℕ)
    (hfuel : k < fuel)
    (hok : ∀ j, j < k → ∃ c, fetch j = some c ∧ c ≠ [])
    (hsent : fetch k = none ∨ fetch k = some [])
    (hsep : ∀ j c, j < k → fetch j = some c →
      ∃ out, sep j c = Except.ok out) :
    (process_stream true fetch sep sr fuel).total_chunks = k ∧
      (process_stream true fetch sep sr fuel).done = true := by
  have hps : process_stream true fetch sep sr fuel =
      runStream fetch sep sr fuel 0 (initState 0, []) := by
    simp [process_stream]
  rw [hps]
  have h := runStream_total fetch sep sr k fuel 0 (initState 0) [] hfuel
    (by intro j hj; simpa using hok j hj)
    (by simpa using hsent)
    (by
      intro j c hj hf
      have := hsep j c hj (by simpa using hf)
      simpa using this)
  simpa using h

/-- Concrete remote fetcher for witnesses: two nonempty windows, then the
sentinel. -/
def wFetch : ℕ → Option (List Frame) :=
  fun i => if i < 2 then some [(1, 1)] else none

/-- Witness for C5: sentinel at index 2 gives `total_chunks = 2` and `done`. -/
theorem remote_total_chunks_settles_witness :
    (2 : ℕ) < 3 ∧ (∀ j, j < 2 → ∃ c, wFetch j = some c ∧ c ≠ []) ∧
      (wFetch 2 = none ∨ wFetch 2 = some []) ∧
      (∀ j c, j < 2 → wFetch j = some c → ∃ out, wSep j c = Except.ok out) ∧
      (process_stream true wFetch wSep 44100 3).total_chunks = 2 ∧
      (process_stream true wFetch wSep 44100 3).done = true := by
  have h1 : ∀ j, j < 2 → ∃ c, wFetch j = some c ∧ c ≠ [] := by
    intro j hj
    exact ⟨[(1, 1)], by simp [wFetch, hj], by simp⟩
  have h2 : wFetch 2 = none ∨ wFetch 2 = some [] := Or.inl (by simp [wFetch])
  have h3 : ∀ j c, j < 2 → wFetch j = some c →
      ∃ out, wSep j c = Except.ok out := by
    intro j c hj hf
    exact ⟨[("vocals", c), ("drums", c)], rfl⟩
  exact ⟨by omega, h1, h2, h3,
    remote_total_chunks_settles wFetch wSep 44100 2 3 (by omega) h1 h2 h3⟩

/-- Claim C9: a local upload whose decoded audio is shorter than one
(positive) chunk window yields zero chunks, and the worker immediately marks
the session done with `total_chunks = 0`, no discovered stems, empty
readiness, no persisted artifacts of either kind, and no error. -/
theorem short_upload_done_empty (sep : ℕ → List Frame → Except String SepOut)
    (sr : ℕ) (d : ℚ) (audio : List Frame)
    (h1 : 0 < pyInt ((sr : ℚ) * d))
    (h2 : (audio.length : ℤ) < pyInt ((sr : ℚ) * d)) :
    split_audio_into_chunks audio sr d = some [] ∧
      (process_session sep sr []).done = true ∧
      (process_session sep sr []).total_chunks = 0 ∧
      (process_session sep sr []).stems = ∅ ∧
      (∀ s, (process_session sep sr []).ready s = ∅) ∧
      (process_session sep sr []).chunkArts = [] ∧
      (process_session sep sr []).stemArts = [] ∧
      (process_session sep sr []).error = none := by
  refine ⟨?_, rfl, rfl, rfl, fun s => rfl, rfl, rfl, rfl⟩
  simp only [split_audio_into_chunks]
  rw [if_neg (by omega), if_neg (by omega)]
  congr 1
  rw [chunksOf, dif_neg (by omega)]

/-- Witness for C9: a single-frame upload against a 3-sample window. -/
theorem short_upload_done_empty_witness :
    0 < pyInt (((3 : ℕ) : ℚ) * 1) ∧
      ((([(5, 5)] : List Frame).length : ℤ) < pyInt (((3 : ℕ) : ℚ) * 1)) ∧
      (split_audio_into_chunks [(5, 5)] 3 1 = some [] ∧
        (process_session wSep 3 []).done = true ∧
        (process_session wSep 3 []).total_chunks = 0 ∧
        (process_session wSep 3 []).stems = ∅ ∧
        (∀ s, (process_session wSep 3 []).ready s = ∅) ∧
        (process_session wSep 3 []).chunkArts = [] ∧
        (process_session wSep 3 []).stemArts = [] ∧
        (process_session wSep 3 []).error = none) := by
  have hp : pyInt (((3 : ℕ) : ℚ) * 1) = 3 := by
    rw [pyInt, if_pos (by norm_num)]
    norm_num
  refine ⟨by rw [hp]; omega, by rw [hp]; norm_num, ?_⟩
  exact short_upload_done_empty wSep 3 1 [(5, 5)] (by rw [hp]; omega)
    (by rw [hp]; norm_num)
